import Mathlib

/-!
Shallow embedding of the rucene fragment (mapped segment storage, the
Lucene53 norms consumer, the empty posting iterator, the top-docs
collector) together with proofs of the specification claims about it.

Machine integers are modelled as `Nat`/`Int`; wherever the Rust code can
wrap (u64 addition in bounds checks, i16/i32 truncation on writes and
shifts) the wrap is made explicit with `% 2^w` style operations.
Fallible Rust functions returning `Result` are modelled with `Except`;
functions that can panic are modelled with `Option`.
-/

namespace Rucene

/-- Error taxonomy of the fragment (`error::ErrorKind`); messages are not
modelled except where a claim depends on their payload. -/
inductive Err where
  | illegalArgument
  | illegalState
deriving DecidableEq, Repr

/-- Two's-complement reinterpretation of an integer at width `w`:
the unique value in `[-2^(w-1), 2^(w-1))` congruent to `n` mod `2^w`.
This is what a Rust `as iN` cast / overflowing shift produces. -/
def toSigned (w : Nat) (n : Int) : Int :=
  (n + 2 ^ (w - 1)) % (2 ^ w) - 2 ^ (w - 1)

/-- Wrapping u64 addition, the release-mode semantics of `a + b` on `u64`. -/
def u64add (a b : Nat) : Nat := (a + b) % (2 ^ 64)

/-! ### Mapped segment storage: `ReadOnlySource` (src/core/store/mmap_index_input.rs) -/

/-- `ReadOnlySource { map, offset, len }`: a view into a shared mapping.
The `Arc<Mmap>` is modelled by the mapped bytes themselves; `offset` and
`len` are the u64 fields. -/
structure ReadOnlySource where
  map : List Nat
  offset : Nat
  len : Nat
deriving DecidableEq, Repr

/-- `ReadOnlySource::range`: bails with IllegalArgument when
`self.len < offset + len`, where the sum is computed in u64 (wrapping in
release builds); otherwise shares the map with a shifted offset. -/
def ReadOnlySource.range (s : ReadOnlySource) (offset len : Nat) :
    Except Err ReadOnlySource :=
  if s.len < u64add offset len then
    .error .illegalArgument
  else
    .ok { map := s.map, offset := u64add s.offset offset, len := len }

/-- `ReadOnlySource::slice(from_offset, to_offset)`. -/
def ReadOnlySource.slice (s : ReadOnlySource) (from_offset to_offset : Nat) :
    Except Err ReadOnlySource :=
  if from_offset > to_offset then
    .error .illegalArgument
  else
    s.range from_offset (to_offset - from_offset)

/-- `ReadOnlySource::slice_from(from_offset)`. -/
def ReadOnlySource.slice_from (s : ReadOnlySource) (from_offset : Nat) :
    Except Err ReadOnlySource :=
  s.slice from_offset s.len

/-- `ReadOnlySource::slice_to(to_offset)`. -/
def ReadOnlySource.slice_to (s : ReadOnlySource) (to_offset : Nat) :
    Except Err ReadOnlySource :=
  s.slice 0 to_offset

/-- `ReadOnlySource::split(addr)`. -/
def ReadOnlySource.split (s : ReadOnlySource) (addr : Nat) :
    Except Err (ReadOnlySource × ReadOnlySource) := do
  let left ← s.slice 0 addr
  let right ← s.slice_from addr
  .ok (left, right)

/-- `ReadOnlySource::as_slice`: the bytes `map[offset..offset+len]`. -/
def ReadOnlySource.as_slice (s : ReadOnlySource) : List Nat :=
  (s.map.drop s.offset).take s.len

/-- The data-model invariant of a view: `offset + len <= map.length`,
with the mapping small enough to be indexed by u64 (always true of a
real file mapping). -/
def ReadOnlySource.wellFormed (s : ReadOnlySource) : Prop :=
  s.offset + s.len ≤ s.map.length ∧ s.map.length < 2 ^ 64

/-! ### Mapped segment storage: `MmapIndexInput` random access reads -/

/-- `MmapIndexInput`: for the random-access reads only the `slice` view
(bytes `start..end` of the source, of length `end - start`) and the
sequential cursor `position` matter; the other fields do not affect the
functions modelled here. -/
structure MmapIndexInput where
  slice : List Nat
  position : Nat
deriving DecidableEq, Repr

/-- `IndexInput::len`: `end - start`, which is the slice's length. -/
def MmapIndexInput.len (m : MmapIndexInput) : Nat := m.slice.length

/-- `RandomAccessInput::read_byte(pos)`: bails with IllegalArgument when
`pos < 0 || pos as u64 >= self.len()`, otherwise returns `slice[pos]`.
The receiver is `&self`: no cursor moves, which the embedding reflects by
not returning an updated state. -/
def MmapIndexInput.read_byte (m : MmapIndexInput) (pos : Int) : Except Err Nat :=
  if pos < 0 ∨ (m.len : Int) ≤ pos then
    .error .illegalArgument
  else
    .ok (m.slice.getD pos.toNat 0)

/-- `RandomAccessInput::read_short(pos)`:
`((i16::from(b0) & 0xff) << 8) | (i16::from(b1) & 0xff)`.  For bytes
`b0, b1 < 256` the i16 shift-or wraps to exactly the two's-complement
value of the 16-bit big-endian word, i.e. `toSigned 16 (b0*2^8 + b1)`. -/
def MmapIndexInput.read_short (m : MmapIndexInput) (pos : Int) : Except Err Int := do
  let b0 ← m.read_byte pos
  let b1 ← m.read_byte (pos + 1)
  .ok (toSigned 16 ((b0 : Int) * 2 ^ 8 + (b1 : Int)))

/-- `RandomAccessInput::read_int(pos)`: four bytes MSB-first or'd into an
i32; the i32 shift wraps, giving the two's-complement value of the 32-bit
big-endian word. -/
def MmapIndexInput.read_int (m : MmapIndexInput) (pos : Int) : Except Err Int := do
  let b0 ← m.read_byte pos
  let b1 ← m.read_byte (pos + 1)
  let b2 ← m.read_byte (pos + 2)
  let b3 ← m.read_byte (pos + 3)
  .ok (toSigned 32 ((b0 : Int) * 2 ^ 24 + (b1 : Int) * 2 ^ 16 + (b2 : Int) * 2 ^ 8 + (b3 : Int)))

/-- `RandomAccessInput::read_long(pos)`:
`(i64::from(int0) << 32) | (i64::from(int1) & 0xffff_ffff)`.  Since
`int0` is an i32, `i64::from(int0) << 32` is exactly `int0 * 2^32` (no
i64 overflow) and its low 32 bits are zero, so the `|` with the
zero-extended low half `int1 % 2^32` is addition. -/
def MmapIndexInput.read_long (m : MmapIndexInput) (pos : Int) : Except Err Int := do
  let int0 ← m.read_int pos
  let int1 ← m.read_int (pos + 4)
  .ok (int0 * 2 ^ 32 + int1 % 2 ^ 32)

/-! ### Lucene53 norms consumer (src/core/codec/lucene53/norms_consumer.rs) -/

/-- One call on an `IndexOutput` (external append-only stream), recorded
with the value it was given.  The streams are modelled as the list of
calls made on them, in order. -/
inductive WOp where
  | wbyte (b : Nat)
  | wshort (v : Int)
  | wint (v : Int)
  | wlong (v : Int)
  | wvint (v : Int)
deriving DecidableEq, Repr

/-- Byte size of a Lucene variable-length i32: the value is reinterpreted
as u32 and written in 7-bit groups, low group first. -/
def vintSize (v : Int) : Nat :=
  Nat.log 128 ((v % 2 ^ 32).toNat) + 1

/-- Bytes appended to the stream by one write call. -/
def WOp.size : WOp → Nat
  | .wbyte _ => 1
  | .wshort _ => 2
  | .wint _ => 4
  | .wlong _ => 8
  | .wvint v => vintSize v

/-- `IndexOutput::file_pointer`: current write offset = bytes written. -/
def filePointer (l : List WOp) : Nat := (l.map WOp.size).sum

/-- `Lucene53NormsConsumer { data, meta, max_doc }`; `data` and `meta`
hold everything written so far (the headers written in `new` are part of
the arbitrary initial contents). -/
structure Lucene53NormsConsumer where
  data : List WOp
  meta : List WOp
  max_doc : Int
deriving DecidableEq, Repr

/-- The count-mismatch failure of `add_norms_field`
(`bail!("illegal norms data for field {}, expected count={}, got={}", ..)`),
carrying the field name, the expected count (`self.max_doc`) and the
observed count. -/
inductive NormsError where
  | countMismatch (field : String) (expected : Int) (got : Nat)
deriving DecidableEq, Repr

/-- `Lucene53NormsConsumer::add_constant`: marker byte 0 then the 8-byte
constant, both into `meta`. -/
def Lucene53NormsConsumer.add_constant (c : Lucene53NormsConsumer) (constant : Int) :
    Lucene53NormsConsumer :=
  { c with meta := c.meta ++ [WOp.wbyte 0, WOp.wlong constant] }

/-- The width selection of `add_byte`: 1, 2, 4 or 8 bytes, tried in that
order, first signed range covering `[min_value, max_value]`. -/
def normWidth (min_value max_value : Int) : Nat :=
  if -128 ≤ min_value ∧ max_value ≤ 127 then 1
  else if -(2 ^ 15) ≤ min_value ∧ max_value ≤ 2 ^ 15 - 1 then 2
  else if -(2 ^ 31) ≤ min_value ∧ max_value ≤ 2 ^ 31 - 1 then 4
  else 8

/-- Modelled from the spec: byte width `w` covers `[mn, mx]` when the
signed `w`-byte range `[-2^(8w-1), 2^(8w-1) - 1]` contains it.  Stated
independently of `normWidth` (which is translated from the source) so
that the source's choice can be checked to be the narrowest. -/
def widthFits (w : Nat) (mn mx : Int) : Prop :=
  -(2 ^ (8 * w - 1)) ≤ mn ∧ mx ≤ 2 ^ (8 * w - 1) - 1

instance (w : Nat) (mn mx : Int) : Decidable (widthFits w mn mx) :=
  inferInstanceAs (Decidable (_ ∧ _))

/-- The fixed-width write `add_byte` performs per value: `write_byte(nv.byte_value() as u8)`
truncates to the low 8 bits, `write_short`/`write_int` truncate to
i16/i32 (`short_value`/`int_value`), width 8 writes the i64 itself. -/
def encodeAt (len : Nat) (v : Int) : WOp :=
  match len with
  | 1 => .wbyte ((v % 2 ^ 8).toNat)
  | 2 => .wshort (toSigned 16 v)
  | 4 => .wint (toSigned 32 v)
  | _ => .wlong v

/-- `Lucene53NormsConsumer::add_byte`: writes the width byte and the
current `data` offset into `meta`, then re-iterates the (reset) values,
appending one fixed-width value per document into `data`. -/
def Lucene53NormsConsumer.add_byte (c : Lucene53NormsConsumer)
    (min_value max_value : Int) (values : List Int) : Lucene53NormsConsumer :=
  let len := normWidth min_value max_value
  let c1 : Lucene53NormsConsumer :=
    { c with meta := c.meta ++ [WOp.wbyte len, WOp.wlong (filePointer c.data)] }
  { c1 with data := c1.data ++ values.map (encodeAt len) }

/-- `Lucene53NormsConsumer::add_norms_field`.  The restartable value
sequence is modelled by the list of i64 values it yields (in document
order; `reset` replays the same list).  `field_number` is the field's
number after the `as i32` cast.  The vint field number is written to
`meta` BEFORE the count check; since the streams are behind `&mut self`,
that write persists even when the function then fails, so the embedding
returns the updated state together with the optional error. -/
def Lucene53NormsConsumer.add_norms_field (c : Lucene53NormsConsumer)
    (field_name : String) (field_number : Int) (values : List Int) :
    Lucene53NormsConsumer × Option NormsError :=
  let c1 : Lucene53NormsConsumer := { c with meta := c.meta ++ [WOp.wvint field_number] }
  let min_value := values.foldl min (2 ^ 63 - 1)
  let max_value := values.foldl max (-(2 ^ 63))
  let count := values.length
  -- `count != self.max_doc as usize`: the i32 is cast to usize by
  -- sign-extension and reinterpretation, i.e. compared as `max_doc mod 2^64`.
  if (count : Int) ≠ c.max_doc % 2 ^ 64 then
    (c1, some (.countMismatch field_name c.max_doc count))
  else if min_value = max_value then
    (c1.add_constant min_value, none)
  else
    (c1.add_byte min_value max_value values, none)

/-! ### Empty posting iterator (src/core/search/posting_iterator.rs) -/

/-- Modelled from the spec: the "no more documents" sentinel
(`core::search::NO_MORE_DOCS`, outside this fragment); the claims depend
only on it being the fixed exhaustion sentinel (i32::MAX). -/
def NO_MORE_DOCS : Int := 2147483647

/-- Modelled from the spec: `Payload` (outside this fragment) is a byte
buffer and `Payload::new()` is the empty one. -/
def PayloadBytes := List Nat
deriving instance DecidableEq, Repr for PayloadBytes

/-- `EmptyPostingIterator { doc_id }`; `default()` starts at -1. -/
structure EmptyPostingIterator where
  doc_id : Int
deriving DecidableEq, Repr

def EmptyPostingIterator.default : EmptyPostingIterator := ⟨-1⟩

/-- The calls a consumer can make on the empty posting iterator
(the ones the claim speaks about). -/
inductive PCall where
  | next
  | advance (target : Int)
  | freq
  | next_position
  | start_offset
  | end_offset
  | payload
  | cost
deriving DecidableEq, Repr

/-- Observation of one call.  Every method of `EmptyPostingIterator`
returns `Ok`, so only the payload of the `Ok` is recorded: `int` for the
`Result<i32>`/DocId returns, `bytes` for the payload, `nat` for `cost`. -/
inductive PObs where
  | int (v : Int)
  | bytes (p : List Nat)
  | nat (n : Nat)
deriving DecidableEq, Repr

/-- One call on `EmptyPostingIterator`, straight from the source:
`next`/`advance` set `doc_id = NO_MORE_DOCS` and return it; `freq` is
`Ok(0)`; positions and offsets are `Ok(-1)`; `payload` is
`Ok(Payload::new())`; `cost` is `0`. -/
def stepCall (it : EmptyPostingIterator) : PCall → EmptyPostingIterator × PObs
  | .next => (⟨NO_MORE_DOCS⟩, .int NO_MORE_DOCS)
  | .advance _ => (⟨NO_MORE_DOCS⟩, .int NO_MORE_DOCS)
  | .freq => (it, .int 0)
  | .next_position => (it, .int (-1))
  | .start_offset => (it, .int (-1))
  | .end_offset => (it, .int (-1))
  | .payload => (it, .bytes [])
  | .cost => (it, .nat 0)

/-- Run a sequence of calls, collecting the observations. -/
def runCalls (it : EmptyPostingIterator) : List PCall → List PObs
  | [] => []
  | c :: rest =>
    let s := stepCall it c
    s.2 :: runCalls s.1 rest

/-- What the specification promises for each call on the empty variant. -/
def expectedObs : PCall → PObs
  | .next => .int NO_MORE_DOCS
  | .advance _ => .int NO_MORE_DOCS
  | .freq => .int 0
  | .next_position => .int (-1)
  | .start_offset => .int (-1)
  | .end_offset => .int (-1)
  | .payload => .bytes []
  | .cost => .nat 0

/-! ### Top docs collector (src/core/search/collector/top_docs.rs) -/

/-- `ScoreDoc { doc, score }`.  The f32 score is modelled as a rational:
on the non-NaN, finite scores the collector's contract demands
(`debug_assert!(!score.is_nan())`), f32 comparison agrees with the
rational order of the represented values. -/
structure ScoreDoc where
  doc : Int
  score : ℚ
deriving DecidableEq, Repr

/-- Heap order on `ScoreDoc`: by score ascending.  `BinaryHeap<ScoreDoc>`
is external std; per the spec it acts as a bounded min-heap on scores
(the root is the current minimum), so it is modelled as a list kept
sorted by this relation.  Tie order among equal scores is
implementation-defined in the heap and is fixed here only to make the
model deterministic. -/
def scoreLE (a b : ScoreDoc) : Prop := a.score ≤ b.score

instance : DecidableRel scoreLE := fun a b =>
  inferInstanceAs (Decidable (a.score ≤ b.score))

instance : IsTotal ScoreDoc scoreLE := ⟨fun a b => le_total a.score b.score⟩

instance : IsTrans ScoreDoc scoreLE := ⟨fun _ _ _ h1 h2 => le_trans h1 h2⟩

/-- Descending order on `ScoreDoc`, for stating "highest score first". -/
def scoreGE (a b : ScoreDoc) : Prop := b.score ≤ a.score

/-- `TopDocsCollector`: the priority queue (as a score-sorted list, min
first = heap root), the capacity `estimated_hits`, the `total_hits`
counter, the per-segment context (its `doc_base`), and the parallel
channel, modelled as the FIFO of `ScoreDoc`s sent but not yet received
(`None` until `leaf_collector` first creates it). -/
structure TopDocsCollector where
  pq : List ScoreDoc
  estimated_hits : Nat
  total_hits : Nat
  reader_context : Option Int
  channel : Option (List ScoreDoc)
deriving DecidableEq, Repr

/-- `TopDocsCollector::new(estimated_hits)`. -/
def TopDocsCollector.new (estimated_hits : Nat) : TopDocsCollector :=
  { pq := [], estimated_hits := estimated_hits, total_hits := 0,
    reader_context := none, channel := none }

/-- `TopDocsCollector::add_doc`: bump `total_hits`; below capacity push
unconditionally; at capacity peek the root (the minimum) and replace it
only when its score is strictly below the new score (`doc.score < score`).
`peek_mut` + `reset` + sift-down is: drop the root, insert the new doc. -/
def TopDocsCollector.add_doc (c : TopDocsCollector) (doc_id : Int) (score : ℚ) :
    TopDocsCollector :=
  let c1 : TopDocsCollector := { c with total_hits := c.total_hits + 1 }
  if c1.pq.length ≠ c1.estimated_hits then
    { c1 with pq := List.orderedInsert scoreLE ⟨doc_id, score⟩ c1.pq }
  else
    match c1.pq with
    | [] => c1
    | m :: rest =>
      if m.score < score then
        { c1 with pq := List.orderedInsert scoreLE ⟨doc_id, score⟩ rest }
      else
        c1

/-- The pops performed by `top_docs`: `n` times `pq.pop().unwrap()`,
each returning the current minimum (head of the sorted list).  Popping an
empty heap would be the `unwrap` panic; `top_docs` never reaches it
because it pops at most `pq.len()` times. -/
def popAll : Nat → List ScoreDoc → List ScoreDoc
  | 0, _ => []
  | _ + 1, [] => []
  | n + 1, x :: xs => x :: popAll n xs

/-- `TopDocs::Score(TopScoreDocs::new(total_hits, score_docs))`. -/
structure TopScoreDocs where
  total_hits : Nat
  score_docs : List ScoreDoc
deriving DecidableEq, Repr

/-- `TopDocsCollector::top_docs`: pop `min(total_hits, pq.len())` docs
(lowest score first) and reverse, so the highest score is listed first. -/
def TopDocsCollector.top_docs (c : TopDocsCollector) : TopScoreDocs :=
  let size := min c.total_hits c.pq.length
  { total_hits := c.total_hits, score_docs := (popAll size c.pq).reverse }

/-- Feed a list of already-globalised (doc id, score) pairs through
`add_doc`, in order.  This is both the single-segment `collect` path
(after `doc + doc_base` translation) and the body of the merge loop in
`finish`. -/
def collectAll (c : TopDocsCollector) (docs : List ScoreDoc) : TopDocsCollector :=
  docs.foldl (fun acc sd => acc.add_doc sd.doc sd.score) c

/-- The collector operations relevant to the channel lifecycle. -/
inductive CollOp where
  | setNextReader (docBase : Int)
  | leafCollector (docBase : Int)
deriving DecidableEq, Repr

/-- `set_next_reader` stores the segment context; `leaf_collector`
creates the channel if it does not exist yet (and hands out a sender
clone, which needs no further modelling here). -/
def applyOp (c : TopDocsCollector) : CollOp → TopDocsCollector
  | .setNextReader b => { c with reader_context := some b }
  | .leafCollector _ => { c with channel := some (c.channel.getD []) }

/-- A collector whose leaf collectors have forwarded `msgs` through the
channel (in arrival order): the channel exists and buffers `msgs`. -/
def withChannel (c : TopDocsCollector) (msgs : List ScoreDoc) : TopDocsCollector :=
  { c with channel := some msgs }

/-- `TopDocsCollector::finish`: `mem::replace` the channel out and
`unwrap` it — a panic (`none`) when `leaf_collector` was never called —
then drop the sender and drain the receiver, folding every queued doc
into the heap with `add_doc`. -/
def TopDocsCollector.finish (c : TopDocsCollector) : Option TopDocsCollector :=
  match c.channel with
  | none => none
  | some msgs => some (collectAll { c with channel := none } msgs)

/-- Scores of the heap contents, as a multiset. -/
def pqScores (c : TopDocsCollector) : Multiset ℚ :=
  Multiset.ofList (c.pq.map ScoreDoc.score)

/-- Scores of a list of docs, as a multiset. -/
def scoresL (l : List ScoreDoc) : Multiset ℚ :=
  Multiset.ofList (l.map ScoreDoc.score)

/-- The collector invariant tying a state to the multiset `seen` of
scores fed to `add_doc` so far (for a collector whose capacity is `K`):
the heap is sorted (root = minimum), `total_hits` counts everything,
the heap size is `min |seen| K`, its contents come from `seen`, and
every score it dropped or rejected is at most every score it holds —
i.e. the heap holds exactly the `min |seen| K` largest scores seen. -/
structure CollectorInv (K : Nat) (seen : Multiset ℚ) (c : TopDocsCollector) : Prop where
  cap : c.estimated_hits = K
  sorted : List.Sorted scoreLE c.pq
  total : c.total_hits = Multiset.card seen
  len : c.pq.length = min (Multiset.card seen) K
  sub : pqScores c ≤ seen
  lb : ∀ q ∈ seen - pqScores c, ∀ r ∈ pqScores c, q ≤ r

/-! ### Helper lemmas: the collector heap -/

theorem popAll_eq_take : ∀ (n : Nat) (l : List ScoreDoc), popAll n l = l.take n := by
  intro n
  induction n with
  | zero => intro l; cases l <;> rfl
  | succ k ih =>
    intro l
    cases l with
    | nil => rfl
    | cons x xs => simp [popAll, ih]

theorem scores_orderedInsert (sd : ScoreDoc) (l : List ScoreDoc) :
    Multiset.ofList ((List.orderedInsert scoreLE sd l).map ScoreDoc.score)
      = sd.score ::ₘ Multiset.ofList (l.map ScoreDoc.score) := by
  have h : List.Perm ((List.orderedInsert scoreLE sd l).map ScoreDoc.score)
      ((sd :: l).map ScoreDoc.score) := (List.perm_orderedInsert scoreLE sd l).map _
  exact Quot.sound h

theorem add_doc_below_cap {c : TopDocsCollector} (h : c.pq.length ≠ c.estimated_hits)
    (d : Int) (s : ℚ) :
    c.add_doc d s = { c with total_hits := c.total_hits + 1,
                             pq := List.orderedInsert scoreLE ⟨d, s⟩ c.pq } := by
  simp [TopDocsCollector.add_doc, h]

theorem add_doc_at_cap_nil {c : TopDocsCollector} (h : c.pq.length = c.estimated_hits)
    (hnil : c.pq = []) (d : Int) (s : ℚ) :
    c.add_doc d s = { c with total_hits := c.total_hits + 1 } := by
  have hest : c.estimated_hits = 0 := by rw [← h, hnil]; rfl
  simp [TopDocsCollector.add_doc, hnil, hest]

theorem add_doc_at_cap_replace {c : TopDocsCollector} {m : ScoreDoc} {rest : List ScoreDoc}
    (h : c.pq.length = c.estimated_hits) (hpq : c.pq = m :: rest) (d : Int) {s : ℚ}
    (hs : m.score < s) :
    c.add_doc d s = { c with total_hits := c.total_hits + 1,
                             pq := List.orderedInsert scoreLE ⟨d, s⟩ rest } := by
  have hlen : rest.length + 1 = c.estimated_hits := by rw [← h, hpq]; rfl
  simp [TopDocsCollector.add_doc, hpq, hlen, hs]

theorem add_doc_at_cap_keep {c : TopDocsCollector} {m : ScoreDoc} {rest : List ScoreDoc}
    (h : c.pq.length = c.estimated_hits) (hpq : c.pq = m :: rest) (d : Int) {s : ℚ}
    (hs : ¬ m.score < s) :
    c.add_doc d s = { c with total_hits := c.total_hits + 1 } := by
  have hlen : rest.length + 1 = c.estimated_hits := by rw [← h, hpq]; rfl
  simp [TopDocsCollector.add_doc, hpq, hlen, hs]

theorem sorted_head_le {m : ScoreDoc} {rest : List ScoreDoc}
    (hs : List.Sorted scoreLE (m :: rest)) :
    ∀ q ∈ Multiset.ofList (rest.map ScoreDoc.score), m.score ≤ q := by
  intro q hq
  rw [Multiset.mem_coe, List.mem_map] at hq
  obtain ⟨b, hb, rfl⟩ := hq
  exact List.rel_of_sorted_cons hs b hb

theorem collector_inv_add {K : Nat} {seen : Multiset ℚ} {c : TopDocsCollector}
    (h : CollectorInv K seen c) (d : Int) (s : ℚ) :
    CollectorInv K (s ::ₘ seen) (c.add_doc d s) := by
  obtain ⟨cap, sorted, total, len, sub, lb⟩ := h
  have cardPq : Multiset.card (pqScores c) = c.pq.length := by simp [pqScores]
  by_cases hcap : c.pq.length = c.estimated_hits
  · -- at capacity
    have hcapK : c.pq.length = K := by rw [hcap, cap]
    have hKle : K ≤ Multiset.card seen := by
      rcases Nat.le_total (Multiset.card seen) K with hle | hle
      · have := Nat.min_eq_left hle
        omega
      · exact hle
    cases hpq : c.pq with
    | nil =>
      have hK0 : K = 0 := by rw [← hcapK, hpq]; rfl
      rw [add_doc_at_cap_nil hcap hpq d s]
      have hzero : pqScores c = 0 := by simp [pqScores, hpq]
      refine ⟨cap, sorted, ?_, ?_, ?_, ?_⟩
      · simpa using total
      · simp [hpq, hK0]
      · calc pqScores { c with total_hits := c.total_hits + 1 } = pqScores c := by
              simp [pqScores]
          _ ≤ seen := sub
          _ ≤ s ::ₘ seen := Multiset.le_cons_self seen s
      · intro q _ r hr
        have : pqScores { c with total_hits := c.total_hits + 1 } = 0 := by
          simp [pqScores, hpq]
        rw [this] at hr
        exact absurd hr (Multiset.not_mem_zero r)
    | cons m rest =>
      have hrestS : pqScores c = m.score ::ₘ Multiset.ofList (rest.map ScoreDoc.score) := by
        simp [pqScores, hpq]
      have hsorted' : List.Sorted scoreLE (m :: rest) := by rwa [hpq] at sorted
      obtain ⟨rem, hrem⟩ := Multiset.le_iff_exists_add.mp sub
      by_cases hms : m.score < s
      · -- replace the root
        rw [add_doc_at_cap_replace hcap hpq d hms]
        have hlen' : (List.orderedInsert scoreLE ⟨d, s⟩ rest).length = K := by
          rw [List.orderedInsert_length]
          have : c.pq.length = rest.length + 1 := by rw [hpq]; rfl
          omega
        have hscores' :
            pqScores { c with total_hits := c.total_hits + 1,
                              pq := List.orderedInsert scoreLE ⟨d, s⟩ rest }
              = s ::ₘ Multiset.ofList (rest.map ScoreDoc.score) := by
          simp only [pqScores]
          exact scores_orderedInsert ⟨d, s⟩ rest
        have hseen : seen = Multiset.ofList (rest.map ScoreDoc.score) + (m.score ::ₘ rem) := by
          rw [hrem, hrestS, Multiset.cons_add, Multiset.add_cons]
        refine ⟨cap, ?_, ?_, ?_, ?_, ?_⟩
        · exact List.Sorted.orderedInsert ⟨d, s⟩ rest hsorted'.of_cons
        · simpa using total
        · simp only [hlen', Multiset.card_cons]
          omega
        · rw [hscores']
          refine Multiset.cons_le_cons s ?_
          rw [hseen]
          exact Multiset.le_add_right _ _
        · intro q hq r hr
          rw [hscores'] at hq hr
          have hsub : (s ::ₘ seen) - (s ::ₘ Multiset.ofList (rest.map ScoreDoc.score))
              = m.score ::ₘ rem := by
            rw [Multiset.sub_cons, Multiset.erase_cons_head, hseen, add_tsub_cancel_left]
          rw [hsub] at hq
          have hq' : q = m.score ∨ q ∈ rem := by
            rcases Multiset.mem_cons.mp hq with h1 | h1
            · exact Or.inl h1
            · exact Or.inr h1
          have hr' : r = s ∨ r ∈ Multiset.ofList (rest.map ScoreDoc.score) :=
            Multiset.mem_cons.mp hr
          have hqm : q ≤ m.score := by
            rcases hq' with rfl | hqrem
            · exact le_refl _
            · refine lb q ?_ m.score ?_
              · rw [hrem, add_tsub_cancel_left]; exact hqrem
              · rw [hrestS]; exact Multiset.mem_cons_self _ _
          rcases hr' with rfl | hrrest
          · exact le_of_lt (lt_of_le_of_lt hqm hms)
          · exact le_trans hqm (sorted_head_le hsorted' r hrrest)
      · -- keep the heap
        rw [add_doc_at_cap_keep hcap hpq d hms]
        have hscores' : pqScores { c with total_hits := c.total_hits + 1 } = pqScores c := by
          simp [pqScores]
        refine ⟨cap, by simpa [hpq] using sorted, by simpa using total, ?_, ?_, ?_⟩
        · show c.pq.length = min (Multiset.card (s ::ₘ seen)) K
          rw [Multiset.card_cons, hcapK]
          omega
        · rw [hscores']
          exact le_trans sub (Multiset.le_cons_self seen s)
        · intro q hq r hr
          rw [hscores'] at hq hr
          have hsub : (s ::ₘ seen) - pqScores c = s ::ₘ rem := by
            rw [hrem, ← Multiset.add_cons, add_tsub_cancel_left]
          rw [hsub] at hq
          rcases Multiset.mem_cons.mp hq with rfl | hqrem
          · -- q = s, rejected because s ≤ the minimum
            have hsm : q ≤ m.score := not_lt.mp hms
            rw [hrestS] at hr
            rcases Multiset.mem_cons.mp hr with rfl | hrrest
            · exact hsm
            · exact le_trans hsm (sorted_head_le hsorted' r hrrest)
          · refine lb q ?_ r hr
            rw [hrem, add_tsub_cancel_left]
            exact hqrem
  · -- below capacity: the heap currently holds everything seen
    have hcapK : c.pq.length ≠ K := by rw [← cap]; exact hcap
    have hlt : Multiset.card seen < K := by
      rcases Nat.lt_or_ge (Multiset.card seen) K with hlt | hge
      · exact hlt
      · exact absurd (by rw [len, Nat.min_eq_right hge]) hcapK
    have hlenSeen : c.pq.length = Multiset.card seen := by
      rw [len, Nat.min_eq_left (le_of_lt hlt)]
    have hall : pqScores c = seen :=
      Multiset.eq_of_le_of_card_le sub (by rw [cardPq, hlenSeen])
    rw [add_doc_below_cap hcap d s]
    have hscores' :
        pqScores { c with total_hits := c.total_hits + 1,
                          pq := List.orderedInsert scoreLE ⟨d, s⟩ c.pq }
          = s ::ₘ pqScores c := by
      simp only [pqScores]
      exact scores_orderedInsert ⟨d, s⟩ c.pq
    refine ⟨cap, ?_, ?_, ?_, ?_, ?_⟩
    · exact List.Sorted.orderedInsert ⟨d, s⟩ c.pq sorted
    · simpa using total
    · show (List.orderedInsert scoreLE ⟨d, s⟩ c.pq).length = min (Multiset.card (s ::ₘ seen)) K
      rw [List.orderedInsert_length, Multiset.card_cons, hlenSeen]
      omega
    · rw [hscores', hall]
    · intro q hq r _
      rw [hscores', hall, tsub_self] at hq
      exact absurd hq (Multiset.not_mem_zero q)

theorem collector_inv_fold {K : Nat} :
    ∀ (docs : List ScoreDoc) {seen : Multiset ℚ} {c : TopDocsCollector},
      CollectorInv K seen c → CollectorInv K (seen + scoresL docs) (collectAll c docs) := by
  intro docs
  induction docs with
  | nil =>
    intro seen c h
    simpa [collectAll, scoresL] using h
  | cons sd rest ih =>
    intro seen c h
    have hstep := collector_inv_add h sd.doc sd.score
    have hfold := ih hstep
    have : (sd.score ::ₘ seen) + scoresL rest = seen + scoresL (sd :: rest) := by
      simp only [scoresL, List.map_cons, ← Multiset.cons_coe, Multiset.cons_add,
        Multiset.add_cons]
    rw [this] at hfold
    simpa [collectAll] using hfold

theorem collector_inv_new (K : Nat) : CollectorInv K 0 (TopDocsCollector.new K) := by
  refine ⟨rfl, List.sorted_nil, rfl, by simp [TopDocsCollector.new], ?_, ?_⟩
  · simp [pqScores, TopDocsCollector.new]
  · intro q hq r hr
    simp [pqScores, TopDocsCollector.new] at hr

theorem collector_inv_run (K : Nat) (docs : List ScoreDoc) :
    CollectorInv K (scoresL docs) (collectAll (TopDocsCollector.new K) docs) := by
  have h := collector_inv_fold docs (collector_inv_new K)
  simpa using h

theorem topk_scores_unique {S A B : Multiset ℚ} (hA : A ≤ S) (hB : B ≤ S)
    (hcard : Multiset.card A = Multiset.card B)
    (lbA : ∀ q ∈ S - A, ∀ r ∈ A, q ≤ r) (lbB : ∀ q ∈ S - B, ∀ r ∈ B, q ≤ r) : A = B := by
  have hle : A ≤ B := by
    rw [Multiset.le_iff_count]
    intro x
    by_contra hx
    push_neg at hx
    have hy : ∃ y, Multiset.count y A < Multiset.count y B := by
      by_contra hy
      push_neg at hy
      have hBA : B ≤ A := Multiset.le_iff_count.mpr hy
      have : B = A := Multiset.eq_of_le_of_card_le hBA (le_of_eq hcard)
      rw [this] at hx
      omega
    obtain ⟨y, hy⟩ := hy
    have hxS : Multiset.count x A ≤ Multiset.count x S := Multiset.le_iff_count.mp hA x
    have hyS : Multiset.count y B ≤ Multiset.count y S := Multiset.le_iff_count.mp hB y
    have hxmem : x ∈ S - B := by
      rw [← Multiset.count_pos, Multiset.count_sub]
      omega
    have hymem : y ∈ S - A := by
      rw [← Multiset.count_pos, Multiset.count_sub]
      omega
    have hxA : x ∈ A := by rw [← Multiset.count_pos]; omega
    have hyB : y ∈ B := by rw [← Multiset.count_pos]; omega
    have h1 : x ≤ y := lbB x hxmem y hyB
    have h2 : y ≤ x := lbA y hymem x hxA
    -- contradiction: count x A > count x B and count y A < count y B with x = y
    have hxy : x = y := le_antisymm h1 h2
    rw [hxy] at hx
    omega
  exact Multiset.eq_of_le_of_card_le hle (le_of_eq hcard.symm)

/-! ### Helper lemmas: the channel lifecycle -/

theorem channel_after_foldl (ops : List CollOp) :
    ∀ c : TopDocsCollector,
      (ops.foldl applyOp c).channel = none ↔
        (c.channel = none ∧ ∀ b : Int, CollOp.leafCollector b ∉ ops) := by
  induction ops with
  | nil => intro c; simp
  | cons op rest ih =>
    intro c
    cases op with
    | setNextReader b =>
      rw [List.foldl_cons]
      show (rest.foldl applyOp { c with reader_context := some b }).channel = none ↔ _
      rw [ih]
      constructor
      · rintro ⟨h1, h2⟩
        refine ⟨h1, fun b' hb' => ?_⟩
        rcases List.mem_cons.mp hb' with heq | hmem
        · exact CollOp.noConfusion heq
        · exact h2 b' hmem
      · rintro ⟨h1, h2⟩
        exact ⟨h1, fun b' hb' => h2 b' (List.mem_cons_of_mem _ hb')⟩
    | leafCollector b =>
      rw [List.foldl_cons]
      show (rest.foldl applyOp { c with channel := some (c.channel.getD []) }).channel
          = none ↔ _
      rw [ih]
      constructor
      · rintro ⟨h1, -⟩
        exact absurd h1 (by simp)
      · rintro ⟨-, h2⟩
        exact absurd (List.mem_cons_self _ _) (h2 b)

/-! ### Helper lemmas: random access reads -/

theorem read_byte_err (m : MmapIndexInput) {q : Int} (h : q < 0 ∨ (m.len : Int) ≤ q) :
    m.read_byte q = .error .illegalArgument := by
  unfold MmapIndexInput.read_byte
  rw [if_pos h]

theorem read_byte_ok (m : MmapIndexInput) {q : Int} (h0 : 0 ≤ q) (h1 : q < (m.len : Int)) :
    m.read_byte q = .ok (m.slice.getD q.toNat 0) := by
  unfold MmapIndexInput.read_byte
  rw [if_neg]
  push_neg
  exact ⟨h0, h1⟩

theorem read_short_ok (m : MmapIndexInput) (p : Nat) (h : p + 2 ≤ m.len) :
    m.read_short (p : Int)
      = .ok (toSigned 16 ((m.slice.getD p 0 : Int) * 2 ^ 8 + (m.slice.getD (p + 1) 0 : Int))) := by
  have h0 : m.read_byte (p : Int) = .ok (m.slice.getD p 0) := by
    have := read_byte_ok m (q := (p : Int)) (by omega) (by omega)
    simpa using this
  have h1 : m.read_byte ((p : Int) + 1) = .ok (m.slice.getD (p + 1) 0) := by
    have hcast : ((p : Int) + 1) = ((p + 1 : Nat) : Int) := by omega
    rw [hcast]
    have := read_byte_ok m (q := ((p + 1 : Nat) : Int)) (by omega) (by omega)
    simpa using this
  simp only [MmapIndexInput.read_short, h0, h1]
  rfl

theorem read_int_ok (m : MmapIndexInput) (p : Nat) (h : p + 4 ≤ m.len) :
    m.read_int (p : Int)
      = .ok (toSigned 32 ((m.slice.getD p 0 : Int) * 2 ^ 24 + (m.slice.getD (p + 1) 0 : Int) * 2 ^ 16
          + (m.slice.getD (p + 2) 0 : Int) * 2 ^ 8 + (m.slice.getD (p + 3) 0 : Int))) := by
  have h0 : m.read_byte (p : Int) = .ok (m.slice.getD p 0) := by
    have := read_byte_ok m (q := (p : Int)) (by omega) (by omega)
    simpa using this
  have h1 : m.read_byte ((p : Int) + 1) = .ok (m.slice.getD (p + 1) 0) := by
    have hcast : ((p : Int) + 1) = ((p + 1 : Nat) : Int) := by omega
    rw [hcast]
    have := read_byte_ok m (q := ((p + 1 : Nat) : Int)) (by omega) (by omega)
    simpa using this
  have h2 : m.read_byte ((p : Int) + 2) = .ok (m.slice.getD (p + 2) 0) := by
    have hcast : ((p : Int) + 2) = ((p + 2 : Nat) : Int) := by omega
    rw [hcast]
    have := read_byte_ok m (q := ((p + 2 : Nat) : Int)) (by omega) (by omega)
    simpa using this
  have h3 : m.read_byte ((p : Int) + 3) = .ok (m.slice.getD (p + 3) 0) := by
    have hcast : ((p : Int) + 3) = ((p + 3 : Nat) : Int) := by omega
    rw [hcast]
    have := read_byte_ok m (q := ((p + 3 : Nat) : Int)) (by omega) (by omega)
    simpa using this
  simp only [MmapIndexInput.read_int, h0, h1, h2, h3]
  rfl

theorem read_short_err (m : MmapIndexInput) {q : Int} (h : q < 0 ∨ (m.len : Int) ≤ q + 1) :
    m.read_short q = .error .illegalArgument := by
  rcases lt_or_le q 0 with h0 | h0
  · simp only [MmapIndexInput.read_short, read_byte_err m (Or.inl h0)]
    rfl
  · rcases le_or_lt (m.len : Int) q with hA | hA
    · simp only [MmapIndexInput.read_short, read_byte_err m (Or.inr hA)]
      rfl
    · have hle : (m.len : Int) ≤ q + 1 := by
        rcases h with h | h
        · omega
        · exact h
      simp only [MmapIndexInput.read_short, read_byte_ok m h0 hA,
        read_byte_err m (q := q + 1) (Or.inr hle)]
      rfl

theorem read_int_err (m : MmapIndexInput) {q : Int} (h : q < 0 ∨ (m.len : Int) ≤ q + 3) :
    m.read_int q = .error .illegalArgument := by
  rcases lt_or_le q 0 with h0 | h0
  · simp only [MmapIndexInput.read_int, read_byte_err m (Or.inl h0)]
    rfl
  · rcases le_or_lt (m.len : Int) q with hA | hA
    · simp only [MmapIndexInput.read_int, read_byte_err m (Or.inr hA)]
      rfl
    · rcases le_or_lt (m.len : Int) (q + 1) with hB | hB
      · simp only [MmapIndexInput.read_int, read_byte_ok m h0 hA,
          read_byte_err m (q := q + 1) (Or.inr hB)]
        rfl
      · rcases le_or_lt (m.len : Int) (q + 2) with hC | hC
        · simp only [MmapIndexInput.read_int, read_byte_ok m h0 hA,
            read_byte_ok m (q := q + 1) (by omega) hB,
            read_byte_err m (q := q + 2) (Or.inr hC)]
          rfl
        · have hD : (m.len : Int) ≤ q + 3 := by
            rcases h with h | h
            · omega
            · exact h
          simp only [MmapIndexInput.read_int, read_byte_ok m h0 hA,
            read_byte_ok m (q := q + 1) (by omega) hB,
            read_byte_ok m (q := q + 2) (by omega) hC,
            read_byte_err m (q := q + 3) (Or.inr hD)]
          rfl

theorem read_long_err (m : MmapIndexInput) {q : Int} (h : q < 0 ∨ (m.len : Int) ≤ q + 7) :
    m.read_long q = .error .illegalArgument := by
  rcases lt_or_le q 0 with h0 | h0
  · simp only [MmapIndexInput.read_long, read_int_err m (Or.inl h0)]
    rfl
  · rcases le_or_lt (m.len : Int) (q + 3) with hA | hA
    · simp only [MmapIndexInput.read_long, read_int_err m (Or.inr hA)]
      rfl
    · have h7 : (m.len : Int) ≤ q + 7 := by
        rcases h with h | h
        · omega
        · exact h
      have hq : q = ((q.toNat : Nat) : Int) := by omega
      have hok := read_int_ok m q.toNat (by omega)
      rw [← hq] at hok
      simp only [MmapIndexInput.read_long, hok,
        read_int_err m (q := q + 4) (Or.inr (by omega))]
      rfl

/-! ### Helper lemmas: fold of min and max over the value sequence -/

theorem foldl_min_le_init (l : List Int) : ∀ a : Int, l.foldl min a ≤ a := by
  induction l with
  | nil => intro a; exact le_refl a
  | cons y ys ih =>
    intro a
    calc (y :: ys).foldl min a = ys.foldl min (min a y) := rfl
      _ ≤ min a y := ih (min a y)
      _ ≤ a := min_le_left a y

theorem foldl_min_le_mem {l : List Int} : ∀ {a x : Int}, x ∈ l → l.foldl min a ≤ x := by
  induction l with
  | nil => intro a x hx; exact absurd hx (List.not_mem_nil x)
  | cons y ys ih =>
    intro a x hx
    rcases List.mem_cons.mp hx with rfl | hmem
    · calc (x :: ys).foldl min a = ys.foldl min (min a x) := rfl
        _ ≤ min a x := foldl_min_le_init ys (min a x)
        _ ≤ x := min_le_right a x
    · exact ih hmem

theorem le_foldl_min {l : List Int} : ∀ {a b : Int}, b ≤ a → (∀ x ∈ l, b ≤ x) →
    b ≤ l.foldl min a := by
  induction l with
  | nil => intro a b hb _; exact hb
  | cons y ys ih =>
    intro a b hb hl
    have hy : b ≤ y := hl y (List.mem_cons_self y ys)
    exact ih (le_min hb hy) fun x hx => hl x (List.mem_cons_of_mem y hx)

theorem foldl_max_ge_init (l : List Int) : ∀ a : Int, a ≤ l.foldl max a := by
  induction l with
  | nil => intro a; exact le_refl a
  | cons y ys ih =>
    intro a
    calc a ≤ max a y := le_max_left a y
      _ ≤ ys.foldl max (max a y) := ih (max a y)
      _ = (y :: ys).foldl max a := rfl

theorem foldl_max_ge_mem {l : List Int} : ∀ {a x : Int}, x ∈ l → x ≤ l.foldl max a := by
  induction l with
  | nil => intro a x hx; exact absurd hx (List.not_mem_nil x)
  | cons y ys ih =>
    intro a x hx
    rcases List.mem_cons.mp hx with rfl | hmem
    · calc x ≤ max a x := le_max_right a x
        _ ≤ ys.foldl max (max a x) := foldl_max_ge_init ys (max a x)
        _ = (x :: ys).foldl max a := rfl
    · exact ih hmem

theorem foldl_max_le {l : List Int} : ∀ {a b : Int}, a ≤ b → (∀ x ∈ l, x ≤ b) →
    l.foldl max a ≤ b := by
  induction l with
  | nil => intro a b hb _; exact hb
  | cons y ys ih =>
    intro a b hb hl
    have hy : y ≤ b := hl y (List.mem_cons_self y ys)
    exact ih (max_le hb hy) fun x hx => hl x (List.mem_cons_of_mem y hx)

theorem foldl_min_const {C : Int} : ∀ {l : List Int}, (∀ x ∈ l, x = C) → l ≠ [] →
    ∀ a : Int, l.foldl min a = min a C := by
  intro l
  induction l with
  | nil => intro _ hne; exact absurd rfl hne
  | cons y ys ih =>
    intro hl _ a
    have hy : y = C := hl y (List.mem_cons_self y ys)
    cases ys with
    | nil => simp [hy]
    | cons z zs =>
      have htail : ∀ x ∈ z :: zs, x = C := fun x hx => hl x (List.mem_cons_of_mem y hx)
      have hrec := ih htail (by simp) (min a y)
      calc (y :: z :: zs).foldl min a = (z :: zs).foldl min (min a y) := rfl
        _ = min (min a y) C := hrec
        _ = min a C := by rw [hy, min_assoc, min_self]

theorem foldl_max_const {C : Int} : ∀ {l : List Int}, (∀ x ∈ l, x = C) → l ≠ [] →
    ∀ a : Int, l.foldl max a = max a C := by
  intro l
  induction l with
  | nil => intro _ hne; exact absurd rfl hne
  | cons y ys ih =>
    intro hl _ a
    have hy : y = C := hl y (List.mem_cons_self y ys)
    cases ys with
    | nil => simp [hy]
    | cons z zs =>
      have htail : ∀ x ∈ z :: zs, x = C := fun x hx => hl x (List.mem_cons_of_mem y hx)
      have hrec := ih htail (by simp) (max a y)
      calc (y :: z :: zs).foldl max a = (z :: zs).foldl max (max a y) := rfl
        _ = max (max a y) C := hrec
        _ = max a C := by rw [hy, max_assoc, max_self]

/-! ### Claim theorems -/

/-- Claim C8: the empty posting-iterator variant, for every sequence of
calls of any length (and from any reachable state, in particular
`default`), reports exhaustion (`NO_MORE_DOCS`) from `next`/`advance`,
freq 0, positions/offsets -1, an empty payload, and cost 0. -/
theorem empty_posting_iterator_responses (it : EmptyPostingIterator) (calls : List PCall) :
    runCalls it calls = calls.map expectedObs := by
  induction calls generalizing it with
  | nil => rfl
  | cons c rest ih =>
    cases c <;> simp [runCalls, stepCall, expectedObs, ih]

/-- Claim C9: `finish` on a collector on which `leaf_collector` was never
called since construction panics (the `unwrap` of the absent channel,
modelled as `none`); when at least one leaf collector was created,
`finish` is total (`isSome`). -/
theorem finish_requires_leaf_collector (K : Nat) (ops : List CollOp) :
    ((∀ b : Int, CollOp.leafCollector b ∉ ops) →
        (ops.foldl applyOp (TopDocsCollector.new K)).finish = none)
    ∧ ((∃ b : Int, CollOp.leafCollector b ∈ ops) →
        ((ops.foldl applyOp (TopDocsCollector.new K)).finish).isSome = true) := by
  constructor
  · intro hno
    have hch : (ops.foldl applyOp (TopDocsCollector.new K)).channel = none :=
      (channel_after_foldl ops (TopDocsCollector.new K)).mpr ⟨rfl, hno⟩
    unfold TopDocsCollector.finish
    rw [hch]
  · rintro ⟨b, hb⟩
    have hch : (ops.foldl applyOp (TopDocsCollector.new K)).channel ≠ none := by
      intro hc
      exact ((channel_after_foldl ops (TopDocsCollector.new K)).mp hc).2 b hb
    unfold TopDocsCollector.finish
    rcases hc : (ops.foldl applyOp (TopDocsCollector.new K)).channel with _ | msgs
    · exact absurd hc hch
    · rfl

/-- Witness for C9: with no operations `finish` panics; after one
`leaf_collector` call it is total. -/
theorem finish_requires_leaf_collector_witness :
    (([] : List CollOp).foldl applyOp (TopDocsCollector.new 3)).finish = none
    ∧ (([CollOp.leafCollector 0].foldl applyOp (TopDocsCollector.new 3)).finish).isSome
        = true := by
  constructor
  · exact (finish_requires_leaf_collector 3 []).1
      (fun b hb => absurd hb (List.not_mem_nil _))
  · exact (finish_requires_leaf_collector 3 [CollOp.leafCollector 0]).2
      ⟨0, List.mem_cons_self _ _⟩

/-- Claim C10: after any sequence of `add_doc` calls on a collector of
capacity `K`, `pq.len() = min(total_hits, K)` (including `K = 0`, where
the heap stays empty), so `top_docs()` returns exactly
`min(total_hits, K)` entries. -/
theorem pq_length_invariant (K : Nat) (docs : List ScoreDoc) :
    (collectAll (TopDocsCollector.new K) docs).pq.length
        = min (collectAll (TopDocsCollector.new K) docs).total_hits K
    ∧ ((collectAll (TopDocsCollector.new K) docs).top_docs).score_docs.length
        = min (collectAll (TopDocsCollector.new K) docs).total_hits K
    ∧ (K = 0 → (collectAll (TopDocsCollector.new K) docs).pq = []) := by
  obtain ⟨cap, sorted, total, len, sub, lb⟩ := collector_inv_run K docs
  refine ⟨?_, ?_, ?_⟩
  · rw [len, total]
  · show (TopDocsCollector.top_docs _).score_docs.length = _
    unfold TopDocsCollector.top_docs
    simp only [popAll_eq_take, List.length_reverse, List.length_take]
    rw [len, total]
    omega
  · intro hK0
    refine List.length_eq_zero.mp ?_
    rw [len, hK0]
    simp

/-- Witness for C10 at `K = 0`: the heap stays empty and the length
invariant holds after one `add_doc`. -/
theorem pq_length_invariant_witness :
    (collectAll (TopDocsCollector.new 0) [⟨1, 1⟩]).pq = []
    ∧ (collectAll (TopDocsCollector.new 0) [⟨1, 1⟩]).pq.length
        = min (collectAll (TopDocsCollector.new 0) [⟨1, 1⟩]).total_hits 0 :=
  ⟨(pq_length_invariant 0 [⟨1, 1⟩]).2.2 rfl, (pq_length_invariant 0 [⟨1, 1⟩]).1⟩

/-- Claim C2: for every input sequence the heap holds exactly the
`min(total seen, K)` largest scores seen (stated as: its size is right,
its score multiset comes from the input, and every score not retained is
at most every retained score), `top_docs()` returns `min(K, total_hits)`
entries ordered highest score first; mechanically, a doc is inserted
unconditionally while below capacity and, at capacity, the current
minimum is replaced exactly when the new score is strictly greater; and
on `K = 3`, scores `[1,2,3,3,5]` for doc ids `1..5`, `total_hits = 5`,
exactly 3 entries are returned with doc id 5 (score 5) first, followed by
the two score-3 documents. -/
theorem topk_collector_holds_k_largest (K : Nat) (docs : List ScoreDoc) :
    (collectAll (TopDocsCollector.new K) docs).total_hits = docs.length
    ∧ (collectAll (TopDocsCollector.new K) docs).pq.length = min docs.length K
    ∧ pqScores (collectAll (TopDocsCollector.new K) docs) ≤ scoresL docs
    ∧ (∀ q ∈ scoresL docs - pqScores (collectAll (TopDocsCollector.new K) docs),
        ∀ r ∈ pqScores (collectAll (TopDocsCollector.new K) docs), q ≤ r)
    ∧ ((collectAll (TopDocsCollector.new K) docs).top_docs).score_docs.length
        = min K (collectAll (TopDocsCollector.new K) docs).total_hits
    ∧ List.Sorted scoreGE ((collectAll (TopDocsCollector.new K) docs).top_docs).score_docs
    ∧ (∀ (c : TopDocsCollector) (d : Int) (s : ℚ),
        (c.pq.length < c.estimated_hits →
          (c.add_doc d s).pq = List.orderedInsert scoreLE ⟨d, s⟩ c.pq)
        ∧ (∀ m rest, c.pq.length = c.estimated_hits → c.pq = m :: rest →
            (m.score < s → (c.add_doc d s).pq = List.orderedInsert scoreLE ⟨d, s⟩ rest)
            ∧ (¬ m.score < s → (c.add_doc d s).pq = c.pq)))
    ∧ ((collectAll (TopDocsCollector.new 3) [⟨1, 1⟩, ⟨2, 2⟩, ⟨3, 3⟩, ⟨4, 3⟩, ⟨5, 5⟩]).total_hits
          = 5
        ∧ ((collectAll (TopDocsCollector.new 3)
            [⟨1, 1⟩, ⟨2, 2⟩, ⟨3, 3⟩, ⟨4, 3⟩, ⟨5, 5⟩]).top_docs).score_docs.length = 3
        ∧ (((collectAll (TopDocsCollector.new 3)
            [⟨1, 1⟩, ⟨2, 2⟩, ⟨3, 3⟩, ⟨4, 3⟩, ⟨5, 5⟩]).top_docs).score_docs.map
              ScoreDoc.doc).head? = some 5
        ∧ ((collectAll (TopDocsCollector.new 3)
            [⟨1, 1⟩, ⟨2, 2⟩, ⟨3, 3⟩, ⟨4, 3⟩, ⟨5, 5⟩]).top_docs).score_docs.map
              ScoreDoc.score = [5, 3, 3]) := by
  obtain ⟨cap, sorted, total, len, sub, lb⟩ := collector_inv_run K docs
  have hN : Multiset.card (scoresL docs) = docs.length := by simp [scoresL]
  refine ⟨?_, ?_, sub, lb, ?_, ?_, ?_, by decide⟩
  · rw [total, hN]
  · rw [len, hN]
  · show (TopDocsCollector.top_docs _).score_docs.length = _
    unfold TopDocsCollector.top_docs
    simp only [popAll_eq_take, List.length_reverse, List.length_take]
    rw [len, total]
    omega
  · show List.Sorted scoreGE (TopDocsCollector.top_docs _).score_docs
    unfold TopDocsCollector.top_docs
    simp only [popAll_eq_take]
    have htake : List.Pairwise scoreLE
        ((collectAll (TopDocsCollector.new K) docs).pq.take
          (min (collectAll (TopDocsCollector.new K) docs).total_hits
            (collectAll (TopDocsCollector.new K) docs).pq.length)) :=
      List.Pairwise.sublist (List.take_sublist _ _) sorted
    exact List.pairwise_reverse.mpr (htake.imp fun h => h)
  · intro c d s
    constructor
    · intro hlt
      rw [add_doc_below_cap (Nat.ne_of_lt hlt) d s]
    · intro m rest hcap hpq
      constructor
      · intro hms
        rw [add_doc_at_cap_replace hcap hpq d hms]
      · intro hms
        rw [add_doc_at_cap_keep hcap hpq d hms]

/-- Witness for C2: a concrete below-capacity insertion obtained from the
mechanism conjunct. -/
theorem topk_collector_holds_k_largest_witness :
    ((TopDocsCollector.new 2).add_doc 7 9).pq
      = List.orderedInsert scoreLE ⟨7, 9⟩ (TopDocsCollector.new 2).pq :=
  ((topk_collector_holds_k_largest 2 []).2.2.2.2.2.2.1 (TopDocsCollector.new 2) 7 9).1
    (by decide)

/-- Counterexample for C3: two fold orders of the same multiset of
(global doc id, score) pairs — sent through the channel in different
arrival orders — produce different top-K sets when scores tie at the
K-boundary, so the result cannot equal "the" sequential merge for every
order. -/
theorem topk_merge_order_dependent :
    Multiset.ofList [(⟨1, 3⟩ : ScoreDoc), ⟨2, 3⟩] = Multiset.ofList [⟨2, 3⟩, ⟨1, 3⟩]
    ∧ (TopDocsCollector.finish (withChannel (TopDocsCollector.new 1) [⟨1, 3⟩, ⟨2, 3⟩])).map
        TopDocsCollector.pq = some [⟨1, 3⟩]
    ∧ (TopDocsCollector.finish (withChannel (TopDocsCollector.new 1) [⟨2, 3⟩, ⟨1, 3⟩])).map
        TopDocsCollector.pq = some [⟨2, 3⟩]
    ∧ (⟨1, 3⟩ : ScoreDoc) ≠ ⟨2, 3⟩ := by decide

/-- Claim C3 (amended): for every multiset of pairs and every order in
which `finish` drains them from the channel, `total_hits` equals the
total number of pairs and the multiset of retained top-K scores is the
same as for a sequential merge in any other order; the retained set of
(doc id, score) pairs itself may differ between orders when scores tie at
the K-boundary. -/
theorem merge_fold_order_invariant (K : Nat) (msgs msgs2 : List ScoreDoc)
    (hp : msgs.Perm msgs2) :
    ∃ c c2, TopDocsCollector.finish (withChannel (TopDocsCollector.new K) msgs) = some c
      ∧ TopDocsCollector.finish (withChannel (TopDocsCollector.new K) msgs2) = some c2
      ∧ c.total_hits = msgs.length ∧ c2.total_hits = msgs.length
      ∧ c.pq.length = min msgs.length K ∧ c2.pq.length = min msgs.length K
      ∧ pqScores c = pqScores c2 := by
  obtain ⟨cap1, sorted1, total1, len1, sub1, lb1⟩ := collector_inv_run K msgs
  obtain ⟨cap2, sorted2, total2, len2, sub2, lb2⟩ := collector_inv_run K msgs2
  have hsc : scoresL msgs2 = scoresL msgs := (Quot.sound (hp.map ScoreDoc.score)).symm
  have hN1 : Multiset.card (scoresL msgs) = msgs.length := by simp [scoresL]
  have hN2 : Multiset.card (scoresL msgs2) = msgs.length := by
    rw [hsc, hN1]
  have hcard1 : Multiset.card (pqScores (collectAll (TopDocsCollector.new K) msgs))
      = (collectAll (TopDocsCollector.new K) msgs).pq.length := by simp [pqScores]
  have hcard2 : Multiset.card (pqScores (collectAll (TopDocsCollector.new K) msgs2))
      = (collectAll (TopDocsCollector.new K) msgs2).pq.length := by simp [pqScores]
  refine ⟨collectAll (TopDocsCollector.new K) msgs,
      collectAll (TopDocsCollector.new K) msgs2, rfl, rfl, ?_, ?_, ?_, ?_, ?_⟩
  · rw [total1, hN1]
  · rw [total2, hN2]
  · rw [len1, hN1]
  · rw [len2, hN2]
  · refine topk_scores_unique (S := scoresL msgs) sub1 (by rw [← hsc]; exact sub2) ?_ lb1 ?_
    · rw [hcard1, hcard2, len1, len2, hN1, hN2]
    · rw [← hsc]
      exact lb2

/-- Witness for C3 (amended): two concrete arrival orders of the same
two pairs. -/
theorem merge_fold_order_invariant_witness :
    ∃ c c2,
      TopDocsCollector.finish (withChannel (TopDocsCollector.new 1) [⟨1, 2⟩, ⟨2, 7⟩]) = some c
      ∧ TopDocsCollector.finish (withChannel (TopDocsCollector.new 1) [⟨2, 7⟩, ⟨1, 2⟩])
          = some c2
      ∧ c.total_hits = 2 ∧ c2.total_hits = 2
      ∧ c.pq.length = min 2 1 ∧ c2.pq.length = min 2 1
      ∧ pqScores c = pqScores c2 := by
  have h := merge_fold_order_invariant 1 [⟨1, 2⟩, ⟨2, 7⟩] [⟨2, 7⟩, ⟨1, 2⟩] (by decide)
  simpa using h

/-- Helper: on `[1, 2, 4]`, a width below the selected one never fits. -/
theorem normWidth_minimal (mn mx : Int) :
    ∀ w ∈ [1, 2, 4], w < normWidth mn mx → ¬ widthFits w mn mx := by
  intro w hw hlt hfit
  have hw' : w = 1 ∨ w = 2 ∨ w = 4 := by simpa using hw
  unfold normWidth at hlt
  unfold widthFits at hfit
  split_ifs at hlt with h1 h2 h3
  · omega
  · -- selected width 2: only w = 1 is below, and h1 says bytes do not fit
    rcases hw' with rfl | rfl | rfl
    · norm_num at hfit
      exact absurd hfit h1
    · omega
    · omega
  · -- selected width 4: w = 1 or w = 2 below
    norm_num at h2
    rcases hw' with rfl | rfl | rfl
    · norm_num at hfit
      exact absurd hfit h1
    · norm_num at hfit
      exact absurd (h2 hfit.1) (not_lt.mpr hfit.2)
    · omega
  · -- selected width 8
    norm_num at h2 h3
    rcases hw' with rfl | rfl | rfl
    · norm_num at hfit
      exact absurd hfit h1
    · norm_num at hfit
      exact absurd (h2 hfit.1) (not_lt.mpr hfit.2)
    · norm_num at hfit
      exact absurd (h3 hfit.1) (not_lt.mpr hfit.2)

/-- Claim C1 (amended): a count mismatch fails with an error naming the
field and the expected (`max_doc`) and observed counts; `data` is exactly
unchanged, and `meta` is exactly the old contents plus the already
written vint field number — previously written field records are intact,
and no marker, width, offset, or value of the failing field is written. -/
theorem norms_count_mismatch_error (c : Lucene53NormsConsumer) (name : String)
    (num : Int) (values : List Int)
    (h : (values.length : Int) ≠ c.max_doc % 2 ^ 64) :
    (c.add_norms_field name num values).2
        = some (NormsError.countMismatch name c.max_doc values.length)
    ∧ (c.add_norms_field name num values).1.data = c.data
    ∧ (c.add_norms_field name num values).1.meta = c.meta ++ [WOp.wvint num] := by
  simp only [Lucene53NormsConsumer.add_norms_field]
  rw [if_pos h]
  exact ⟨rfl, rfl, rfl⟩

/-- Witness for C1 (amended): a consumer holding one previously written
field record, fed one value when two are expected. -/
theorem norms_count_mismatch_error_witness :
    ((⟨[WOp.wbyte 7], [WOp.wvint 0, WOp.wbyte 0, WOp.wlong 5], 2⟩ :
        Lucene53NormsConsumer).add_norms_field "f" 1 [1]).2
        = some (NormsError.countMismatch "f" 2 1)
    ∧ ((⟨[WOp.wbyte 7], [WOp.wvint 0, WOp.wbyte 0, WOp.wlong 5], 2⟩ :
        Lucene53NormsConsumer).add_norms_field "f" 1 [1]).1.data = [WOp.wbyte 7]
    ∧ ((⟨[WOp.wbyte 7], [WOp.wvint 0, WOp.wbyte 0, WOp.wlong 5], 2⟩ :
        Lucene53NormsConsumer).add_norms_field "f" 1 [1]).1.meta
        = [WOp.wvint 0, WOp.wbyte 0, WOp.wlong 5] ++ [WOp.wvint 1] :=
  norms_count_mismatch_error ⟨[WOp.wbyte 7], [WOp.wvint 0, WOp.wbyte 0, WOp.wlong 5], 2⟩
    "f" 1 [1] (by decide)

/-- Counterexample for C1 as stated: on a count mismatch the `meta`
output is NOT left exactly as it was before the call — the field number
vint has already been written when the check fails. -/
theorem norms_count_mismatch_meta_written :
    ((⟨[], [], 1⟩ : Lucene53NormsConsumer).add_norms_field "f" 1 []).2
        = some (NormsError.countMismatch "f" 1 0)
    ∧ ((⟨[], [], 1⟩ : Lucene53NormsConsumer).add_norms_field "f" 1 []).1.meta ≠ [] := by
  decide

/-- Claim C4: with the right count, an all-constant field writes marker 0
and the 8-byte constant into `meta` and nothing into `data`; a field with
two distinct values writes `(width, current data offset)` into `meta` and
one fixed-width value per document into `data` in document order, where
the width is the narrowest of {1,2,4,8} covering `[min, max]`; values in
`[-128,127]` select width 1 and adding 200 escalates to width 2. -/
theorem norms_encoding_selection (c : Lucene53NormsConsumer) (name : String) (num : Int)
    (values : List Int)
    (hcount : (values.length : Int) = c.max_doc % 2 ^ 64)
    (hrange : ∀ v ∈ values, -(2 ^ 63) ≤ v ∧ v ≤ 2 ^ 63 - 1)
    (hne : values ≠ []) :
    (∀ C, (∀ v ∈ values, v = C) →
      c.add_norms_field name num values
        = ({ c with meta := c.meta ++ [WOp.wvint num, WOp.wbyte 0, WOp.wlong C] }, none))
    ∧ (∀ a b, a ∈ values → b ∈ values → a ≠ b →
        c.add_norms_field name num values
          = ({ c with
                meta := c.meta ++ [WOp.wvint num,
                  WOp.wbyte (normWidth (values.foldl min (2 ^ 63 - 1))
                    (values.foldl max (-(2 ^ 63)))),
                  WOp.wlong (filePointer c.data)],
                data := c.data ++ values.map (encodeAt
                  (normWidth (values.foldl min (2 ^ 63 - 1))
                    (values.foldl max (-(2 ^ 63))))) }, none)
          ∧ widthFits (normWidth (values.foldl min (2 ^ 63 - 1))
              (values.foldl max (-(2 ^ 63))))
              (values.foldl min (2 ^ 63 - 1)) (values.foldl max (-(2 ^ 63)))
          ∧ (∀ w ∈ [1, 2, 4], w < normWidth (values.foldl min (2 ^ 63 - 1))
                (values.foldl max (-(2 ^ 63))) →
              ¬ widthFits w (values.foldl min (2 ^ 63 - 1))
                  (values.foldl max (-(2 ^ 63)))))
    ∧ normWidth ([-128, 127].foldl min (2 ^ 63 - 1)) ([-128, 127].foldl max (-(2 ^ 63))) = 1
    ∧ normWidth ([-128, 127, 200].foldl min (2 ^ 63 - 1))
        ([-128, 127, 200].foldl max (-(2 ^ 63))) = 2 := by
  have hmin_lb : -(2 ^ 63) ≤ values.foldl min (2 ^ 63 - 1) :=
    le_foldl_min (by norm_num) fun x hx => (hrange x hx).1
  have hmax_ub : values.foldl max (-(2 ^ 63)) ≤ 2 ^ 63 - 1 :=
    foldl_max_le (by norm_num) fun x hx => (hrange x hx).2
  refine ⟨?_, ?_, by decide, by decide⟩
  · intro C hC
    obtain ⟨v0, hv0⟩ := List.exists_mem_of_ne_nil values hne
    have hCval : C ∈ values := by rw [← hC v0 hv0]; exact hv0
    have hminC : values.foldl min (2 ^ 63 - 1) = C := by
      rw [foldl_min_const hC hne (2 ^ 63 - 1), min_eq_right (hrange C hCval).2]
    have hmaxC : values.foldl max (-(2 ^ 63)) = C := by
      rw [foldl_max_const hC hne (-(2 ^ 63)), max_eq_right (hrange C hCval).1]
    simp only [Lucene53NormsConsumer.add_norms_field]
    rw [if_neg (not_not_intro hcount), if_pos (by rw [hminC, hmaxC]), hminC]
    simp [Lucene53NormsConsumer.add_constant]
  · intro a b ha hb hab
    have hminmax : values.foldl min (2 ^ 63 - 1) ≠ values.foldl max (-(2 ^ 63)) := by
      intro heq
      have h1 : values.foldl min (2 ^ 63 - 1) ≤ a := foldl_min_le_mem ha
      have h2 : a ≤ values.foldl max (-(2 ^ 63)) := foldl_max_ge_mem ha
      have h3 : values.foldl min (2 ^ 63 - 1) ≤ b := foldl_min_le_mem hb
      have h4 : b ≤ values.foldl max (-(2 ^ 63)) := foldl_max_ge_mem hb
      exact hab (by omega)
    refine ⟨?_, ?_, normWidth_minimal _ _⟩
    · simp only [Lucene53NormsConsumer.add_norms_field]
      rw [if_neg (not_not_intro hcount), if_neg hminmax]
      simp [Lucene53NormsConsumer.add_byte]
    · have hlb := hmin_lb
      have hub := hmax_ub
      norm_num at hlb hub
      unfold normWidth widthFits
      split_ifs with h1 h2 h3
      · norm_num at h1 ⊢
        omega
      · norm_num at h2 ⊢
        omega
      · norm_num at h3 ⊢
        omega
      · norm_num
        omega

/-- Witness for C4: the escalation example `[-128, 127, 200]` with
`max_doc = 3` selects width 2 and writes three shorts. -/
theorem norms_encoding_selection_witness :
    (⟨[], [], 3⟩ : Lucene53NormsConsumer).add_norms_field "f" 1 [-128, 127, 200]
        = (⟨[WOp.wshort (-128), WOp.wshort 127, WOp.wshort 200],
            [WOp.wvint 1, WOp.wbyte 2, WOp.wlong 0], 3⟩, none)
    ∧ widthFits 2 (-128) 200 ∧ ¬ widthFits 1 (-128) 200 := by
  have h := (norms_encoding_selection ⟨[], [], 3⟩ "f" 1 [-128, 127, 200]
    (by decide) (by decide) (by decide)).2.1 (-128) 127 (by decide) (by decide) (by decide)
  exact ⟨h.1.trans (by decide), by decide, by decide⟩

/-- Claim C5 (code bug): the bounds check of `ReadOnlySource::range`
computes `offset + len` in u64, which wraps (release semantics; debug
builds panic on the overflow), so a huge offset slips past the check and
an out-of-bounds view is returned instead of IllegalArgument. -/
theorem range_bounds_check_overflow :
    (ReadOnlySource.mk [0] 0 1).wellFormed
    ∧ (2 ^ 64 - 1) + 2 > (ReadOnlySource.mk [0] 0 1).len
    ∧ (ReadOnlySource.mk [0] 0 1).range (2 ^ 64 - 1) 2
        = Except.ok (ReadOnlySource.mk [0] (2 ^ 64 - 1) 2)
    ∧ ¬ (ReadOnlySource.mk [0] (2 ^ 64 - 1) 2).wellFormed := by
  refine ⟨⟨by norm_num, by norm_num⟩, by norm_num, by rfl, ?_⟩
  intro hwf
  have h1 := hwf.1
  norm_num at h1

/-- Claim C6: in-bounds random-access reads return the big-endian
interpretation of the underlying bytes — `read_short p` is the signed
16-bit value `(b0 << 8) | b1` of the bytes at `p, p+1`, `read_int p` the
signed 32-bit value of the four bytes at `p..p+3` MSB-first, and
`read_long p` is `(int0 << 32) | (int1 & 0xffffffff)` with `int0` the
high half — while an out-of-range position fails with IllegalArgument.
The receivers are `&self`, so no cursor moves (the embedding's read
functions return no state). -/
theorem random_access_reads_big_endian (m : MmapIndexInput) (p : Nat)
    (_hwf : ∀ b ∈ m.slice, b < 256) :
    (p + 2 ≤ m.len →
      m.read_short (p : Int) = .ok (toSigned 16
        ((m.slice.getD p 0 : Int) * 2 ^ 8 + (m.slice.getD (p + 1) 0 : Int))))
    ∧ (p + 4 ≤ m.len →
      m.read_int (p : Int) = .ok (toSigned 32
        ((m.slice.getD p 0 : Int) * 2 ^ 24 + (m.slice.getD (p + 1) 0 : Int) * 2 ^ 16
          + (m.slice.getD (p + 2) 0 : Int) * 2 ^ 8 + (m.slice.getD (p + 3) 0 : Int))))
    ∧ (∀ int0 int1, m.read_int (p : Int) = .ok int0 → m.read_int ((p : Int) + 4) = .ok int1 →
        m.read_long (p : Int) = .ok (int0 * 2 ^ 32 + int1 % 2 ^ 32))
    ∧ (∀ q : Int, q < 0 ∨ (m.len : Int) ≤ q + 1 →
        m.read_short q = .error .illegalArgument)
    ∧ (∀ q : Int, q < 0 ∨ (m.len : Int) ≤ q + 3 →
        m.read_int q = .error .illegalArgument)
    ∧ (∀ q : Int, q < 0 ∨ (m.len : Int) ≤ q + 7 →
        m.read_long q = .error .illegalArgument) := by
  refine ⟨fun h => read_short_ok m p h, fun h => read_int_ok m p h, ?_, ?_, ?_, ?_⟩
  · intro int0 int1 h0 h1
    simp only [MmapIndexInput.read_long, h0, h1]
    rfl
  · intro q hq; exact read_short_err m hq
  · intro q hq; exact read_int_err m hq
  · intro q hq; exact read_long_err m hq

/-- Witness for C6: a concrete ten-byte view, short read at 1, failing
int read at -1. -/
theorem random_access_reads_big_endian_witness :
    (MmapIndexInput.mk [1, 2, 255, 4, 5, 6, 7, 8, 9, 10] 0).read_short 1
        = Except.ok (toSigned 16 ((2 : Int) * 2 ^ 8 + 255))
    ∧ (MmapIndexInput.mk [1, 2, 255, 4, 5, 6, 7, 8, 9, 10] 0).read_int (-1)
        = Except.error Err.illegalArgument := by
  have h := random_access_reads_big_endian
    (MmapIndexInput.mk [1, 2, 255, 4, 5, 6, 7, 8, 9, 10] 0) 1 (by decide)
  refine ⟨?_, h.2.2.2.2.1 (-1) (Or.inl (by norm_num))⟩
  have h1 := h.1 (by decide)
  simpa using h1

/-- Claim C7: for `0 <= addr <= len` on a well-formed view, `split addr`
succeeds with exactly the pair `slice_to addr` / `slice_from addr`, and
the two halves' bytes concatenate back to the original view's bytes. -/
theorem split_slices_concat (s : ReadOnlySource) (addr : Nat) (haddr : addr ≤ s.len)
    (hwf : s.wellFormed) :
    ∃ l r, s.split addr = .ok (l, r)
      ∧ s.slice_to addr = .ok l ∧ s.slice_from addr = .ok r
      ∧ l.as_slice ++ r.as_slice = s.as_slice := by
  obtain ⟨hol, hm⟩ := hwf
  have ho : s.offset < 2 ^ 64 := by omega
  have hl : s.len < 2 ^ 64 := by omega
  have ha : addr < 2 ^ 64 := by omega
  have hoa : s.offset + addr < 2 ^ 64 := by omega
  have hslice0 : s.slice 0 addr = .ok ⟨s.map, s.offset, addr⟩ := by
    unfold ReadOnlySource.slice ReadOnlySource.range u64add
    rw [if_neg (by omega), if_neg (by
      rw [Nat.sub_zero, Nat.zero_add, Nat.mod_eq_of_lt ha]
      omega)]
    rw [Nat.sub_zero, Nat.add_zero, Nat.mod_eq_of_lt ho]
  have hsliceFrom : s.slice_from addr = .ok ⟨s.map, s.offset + addr, s.len - addr⟩ := by
    unfold ReadOnlySource.slice_from ReadOnlySource.slice ReadOnlySource.range u64add
    rw [if_neg (by omega), if_neg (by
      rw [Nat.add_sub_cancel' haddr, Nat.mod_eq_of_lt hl]
      omega)]
    rw [Nat.mod_eq_of_lt hoa]
  refine ⟨⟨s.map, s.offset, addr⟩, ⟨s.map, s.offset + addr, s.len - addr⟩, ?_, hslice0,
      hsliceFrom, ?_⟩
  · unfold ReadOnlySource.split
    rw [hslice0, hsliceFrom]
    rfl
  · show ((s.map.drop s.offset).take addr)
        ++ ((s.map.drop (s.offset + addr)).take (s.len - addr))
        = (s.map.drop s.offset).take s.len
    have hdrop : s.map.drop (s.offset + addr) = (s.map.drop s.offset).drop addr := by
      rw [List.drop_drop, Nat.add_comm]
    rw [hdrop, ← List.take_add, Nat.add_sub_cancel' haddr]

/-- Witness for C7: splitting a three-byte view at 1. -/
theorem split_slices_concat_witness :
    ∃ l r, (ReadOnlySource.mk [10, 20, 30] 0 3).split 1 = .ok (l, r)
      ∧ (ReadOnlySource.mk [10, 20, 30] 0 3).slice_to 1 = .ok l
      ∧ (ReadOnlySource.mk [10, 20, 30] 0 3).slice_from 1 = .ok r
      ∧ l.as_slice ++ r.as_slice = (ReadOnlySource.mk [10, 20, 30] 0 3).as_slice :=
  split_slices_concat ⟨[10, 20, 30], 0, 3⟩ 1 (by norm_num) ⟨by norm_num, by norm_num⟩

end Rucene
